import Mathlib

/-!
Verification of the oicb ICB chat client (src/oicb.c).

Bytes are modelled as `Nat` values below 256; byte buffers as `List Nat`.
C strings are modelled as the byte list of their characters without the
terminating NUL; where the C code relies on the terminator (strlen, strchr,
strcmp) the model reproduces that behaviour explicitly (`cstr`, `strchrIdx`).
-/

namespace Oicb

/-- C `isblank` in the C locale: space or horizontal tab. -/
def isblank (c : Nat) : Bool := c == 32 || c == 9

/-- C `ispunct` in the C locale (ASCII): printable, not alphanumeric, not space. -/
def ispunct (c : Nat) : Bool :=
  (33 ≤ c && c ≤ 47) || (58 ≤ c && c ≤ 64) || (91 ≤ c && c ≤ 96) || (123 ≤ c && c ≤ 126)

/-- C `isspace` in the C locale: space, \t, \n, \v, \f, \r. -/
def isspace (c : Nat) : Bool := c == 32 || (9 ≤ c && c ≤ 13)

/-- The C string stored in a buffer: the bytes up to the first NUL.
`strlen` of the buffer is `(cstr l).length`. -/
def cstr (l : List Nat) : List Nat := l.takeWhile (· ≠ 0)

/-- Index of the first occurrence of byte `c` in a NUL-terminated string whose
content bytes are `l` (the terminator is implicit at the end of the list):
C `strchr(s, c) - s`, `none` when `strchr` returns NULL. -/
def strchrIdx (c : Nat) : List Nat → Option Nat
  | [] => none
  | b :: bs => if b = c then some 0 else if b = 0 then none else (strchrIdx c bs).map (· + 1)

/-- C `strcspn(s, " \t")`: length of the initial segment free of blanks. -/
def strcspn (l : List Nat) : Nat := (l.takeWhile (fun c => c ≠ 32 ∧ c ≠ 9)).length

/-! ## Standard-mode outbound encoder: `push_icb_msg_ws` (src/oicb.c:247-288)

The nickname only enters through `strlen(nick)`, modelled as `nicklen`.
`main` rejects nicknames with `strlen(nick) >= NICKNAME_MAX` (≤ 64), so all
theorems assume `nicklen ≤ 63`; under that bound the C `unsigned char`
arithmetic `253 - (strlen(nick) + 1) - commonlen` never wraps and coincides
with the `Nat` subtraction used here. -/

/-- The constant `NICKNAME_MAX` from oicb.c (64 when `LOGIN_NAME_MAX > 64`, else
`LOGIN_NAME_MAX`); we model the 64 bound. -/
def NICKNAME_MAX : Nat := 64

/-- The flag `privmsg = type == 'h' && memcmp(msg, "m\001", 2) == 0`. -/
def isPrivmsg (typ : Nat) (msg : List Nat) : Bool := typ == 104 && msg.take 2 == [109, 1]

/-- The common prefix length of a private message: the bytes up to and
including the first space, when a space occurs within `NICKNAME_MAX + 3`
bytes; 0 otherwise (oicb.c:254-260). -/
def commonLen (typ : Nat) (msg : List Nat) : Nat :=
  if isPrivmsg typ msg then
    match strchrIdx 32 msg with
    | some i => if i < NICKNAME_MAX + 3 then i + 1 else 0
    | none => 0
  else 0

/-- Whether the encoder prefers word boundaries: `type == 'b' || privmsg`. -/
def wordWrap (typ : Nat) (msg : List Nat) : Bool := typ == 98 || isPrivmsg typ msg

/-- The downward scan `for (p = src + msglen - 1; p > src; p--)` looking for a
blank/punctuation byte, started at index `j` and stopping above index 0:
returns the largest index in `[1, j]` whose byte is blank or punctuation. -/
def wsScanIdx (src : List Nat) : Nat → Option Nat
  | 0 => none
  | j + 1 =>
    if isblank (src.getD (j + 1) 0) || ispunct (src.getD (j + 1) 0) then some (j + 1)
    else wsScanIdx src j

/-- Length of the chunk the do-while body cuts from `src` (oicb.c:266-276):
`maxlen` bytes when the remainder is too long (moved back to just after the
last blank/punctuation byte when word-wrapping), all of `src` otherwise. -/
def chunkLen (wb : Bool) (maxlen : Nat) (src : List Nat) : Nat :=
  if maxlen < src.length then
    if wb then ((wsScanIdx src (maxlen - 1)).map (· + 1)).getD maxlen else maxlen
  else src.length

/-- The do-while loop of `push_icb_msg_ws`, recursing on a step budget.
Every iteration cuts at least one byte whenever `maxlen ≥ 1` (as `main`
guarantees: there `maxlen ≥ 122`), so the caller's budget of
`src.length + 1` steps is never exhausted; the budget-0 branch (where the
C loop would not terminate) is unreachable. -/
def encWSChunksGo (wb : Bool) (maxlen : Nat) : Nat → List Nat → List (List Nat)
  | 0, src => [src]
  | fuel + 1, src =>
    let m := chunkLen wb maxlen src
    if src.length ≤ m then [src.take m]
    else src.take m :: encWSChunksGo wb maxlen fuel (src.drop m)

/-- The chunk sequence produced by the do-while loop of `push_icb_msg_ws`.
The loop body always runs at least once (a zero-length message still emits
one packet). -/
def encWSChunks (wb : Bool) (maxlen : Nat) (src : List Nat) : List (List Nat) :=
  encWSChunksGo wb maxlen (src.length + 1) src

/-- One emitted packet (oicb.c:277-286): the task data is
`[msglen+commonlen+2][type][common prefix][chunk][NUL]`, `it_len` counts all
of it, so the trailing NUL travels on the wire inside the counted length.
The length byte is stored through a `char`, hence the mod 256 (it never
wraps under the `maxlen` actually used, see the C2 theorem). -/
def wsPacket (typ : Nat) (common chunk : List Nat) : List Nat :=
  ((chunk.length + common.length + 2) % 256) :: typ :: common ++ chunk ++ [0]

/-- The chunk list `push_icb_msg_ws` cuts the (prefix-stripped) message
into. -/
def wsChunksOf (nicklen typ : Nat) (msg : List Nat) : List (List Nat) :=
  encWSChunks (wordWrap typ msg) (253 - (nicklen + 1) - commonLen typ msg)
    (msg.drop (commonLen typ msg))

/-- Model of `push_icb_msg_ws(type, msg, strlen(msg))`: the list of packets queued on
`tasks_net`, in order (oicb.c:247-288). -/
def push_icb_msg_ws (nicklen typ : Nat) (msg : List Nat) : List (List Nat) :=
  (wsChunksOf nicklen typ msg).map (wsPacket typ (msg.take (commonLen typ msg)))

/-! ## Extended-mode outbound encoder: `push_icb_msg_extended` (oicb.c:293-329)

The task buffer is `calloc`ed, so every byte not explicitly written is 0 and
the final `memcpy` of `szfinal` bytes from a C string of `src.length`
remaining content bytes reads the string terminator as its last byte.
`it_len = (len+1) + msgcnt*2` bytes are sent. -/

/-- The count `msgcnt = (len + 253) / 254` with `len = strlen(src) + 1`. -/
def extMsgcnt (src : List Nat) : Nat := (src.length + 1 + 253) / 254

/-- The value `szfinal = (unsigned char)(len % 254)` with `len = strlen(src) + 1`. -/
def extSzfinal (src : List Nat) : Nat := (src.length + 1) % 254

/-- The non-final 256-byte slots: each `[0][type]` plus 254 payload bytes. -/
def extContSlots (typ : Nat) (src : List Nat) : List (List Nat) :=
  (List.range (extMsgcnt src - 1)).map fun k => 0 :: typ :: (src.drop (254 * k)).take 254

/-- The final slot as sent: `[szfinal+1][type]`, then the `szfinal` bytes
`memcpy` reads (the remaining payload plus the string terminator), then the
`calloc` zero padding up to `it_len`. -/
def extFinalSlot (typ : Nat) (src : List Nat) : List Nat :=
  let len := src.length + 1
  let rest := (src.drop (254 * (extMsgcnt src - 1)) ++ [0]).take (extSzfinal src)
  (extSzfinal src + 1) :: typ :: rest ++
    List.replicate (len - 254 * (extMsgcnt src - 1) - extSzfinal src) 0

/-- The slot sequence of one extended-mode task. -/
def extSlots (typ : Nat) (src : List Nat) : List (List Nat) :=
  extContSlots typ src ++ [extFinalSlot typ src]

/-- Model of `push_icb_msg_extended(type, src, strlen(src))`: the byte stream of the
single task queued on `tasks_net` (its `it_len` bytes). -/
def push_icb_msg_extended (typ : Nat) (src : List Nat) : List Nat :=
  (extSlots typ src).flatten

/-! ## Inbound decoder: `get_next_icb_msg` (oicb.c:931-1013)

The static buffer is modelled as the list of the `bufread` bytes received so
far, with the one spare byte the read loop always reserves for a missing
terminator appended as a 0.  `memmove` is modelled as in-place list surgery.
The model follows the C control flow exactly, including the fact that
`msgend` is not adjusted by the compaction loop.  Move sizes use natural
subtraction; the states where the corresponding C `size_t` expression would
wrap below zero (a crash) are flagged by `DecodeRes.crash` and by
`rest = none` for the wrap the *next* call would perform. -/

/-- Overwrite `arr` starting at `off` with `src` (bounds respected by use). -/
def writeBytes (arr : List Nat) (off : Nat) (src : List Nat) : List Nat :=
  arr.take off ++ src ++ arr.drop (off + src.length)

/-- C `memmove(arr + dst, arr + src, n)` within one buffer. -/
def memmove (arr : List Nat) (dst src n : Nat) : List Nat :=
  writeBytes arr dst ((arr.drop src).take n)

/-- The walk `for (lastpkt = buf; lastpkt[0] == 0; lastpkt += 256)` with its
in-loop check `if (buf + bufread - 256 < lastpkt) return NULL`:
finds the offset of the first slot whose leading byte is nonzero.  The walk
advances 256 bytes per step and the in-loop check stops it before `off`
passes `bufread`, so the caller's step budget of `bufread / 256 + 1` is
never exhausted and the budget-0 branch is unreachable. -/
def findLastPkt (arr : List Nat) (bufread : Nat) : Nat → Nat → Option Nat
  | _, 0 => none
  | off, fuel + 1 =>
    if arr.getD off 0 = 0 then
      if bufread < off + 256 then none
      else findLastPkt arr bufread (off + 256) fuel
    else some off

/-- The compaction loop (oicb.c:991-1002): checks every slot's type byte
against the final slot's and strips the per-slot overhead with shifting
moves.  Returns `none` on the fatal type mismatch, otherwise the buffer,
`bufread` and `lastpkt` after the loop.  Each iteration handles one
original 256-byte slot (`lastpkt - pkt` shrinks by exactly 256), so the
caller's step budget of `lastpkt / 256 + 2` is never exhausted and the
budget-0 branch is unreachable. -/
def compactLoop (arr : List Nat) (bufread pkt lastpkt : Nat) :
    Nat → Option (List Nat × Nat × Nat)
  | 0 => none
  | fuel + 1 =>
    if pkt ≤ lastpkt then
      if arr.getD (pkt + 1) 0 ≠ arr.getD (lastpkt + 1) 0 then none
      else if pkt = 0 then compactLoop arr bufread (pkt + 256) lastpkt fuel
      else
        let shift := if arr.getD (pkt - 1) 0 = 0 then 3 else 2
        let arr2 := memmove arr (pkt + 2 - shift) (pkt + 2) (bufread - (pkt + 2))
        compactLoop arr2 (bufread - shift) (pkt + 256 - shift) (lastpkt - shift) fuel
    else some (arr, bufread, lastpkt)

/-- Result of one `get_next_icb_msg` call.
`msg m msglen rest`: the call returns the bytes `m` (`*msglen` of them,
starting at the type byte) and keeps `rest` for the next call; `rest = none`
marks the case `msgend > bufread`, where the next call would compute the
size `bufread - (msgend - buf)` below zero — `size_t` wrap-around, a crash.
`crash`: this call itself performs that wrapped-size `memmove`.
`fatal`: `err(2, "message types messed up...")`. -/
inductive DecodeRes where
  | again : DecodeRes
  | fatal : DecodeRes
  | crash : DecodeRes
  | msg (m : List Nat) (msglen : Nat) (rest : Option (List Nat)) : DecodeRes
deriving DecidableEq

/-- Package the returned message: pointer `buf + 1`, `*msglen = msgend - 2`,
and the residue `[msgend, bufread)` that the next call shifts to the front. -/
def mkDecodeMsg (arr : List Nat) (msgend bufread : Nat) : DecodeRes :=
  .msg ((arr.drop 1).take (msgend - 2)) (msgend - 2)
    (if msgend ≤ bufread then some ((arr.drop msgend).take (bufread - msgend)) else none)

/-- One call of `get_next_icb_msg` on a buffer currently holding `bs`
(all socket bytes already read; a read now returns EAGAIN). -/
def get_next_icb_msg (bs : List Nat) : DecodeRes :=
  let bufread := bs.length
  let arr := bs ++ [0]
  if bufread = 0 then .again
  else
    match findLastPkt arr bufread 0 (bufread / 256 + 1) with
    | none => .again
    | some lp =>
      let L := arr.getD lp 0
      if bufread < lp + L then .again
      else
        let msgend := lp + 1 + L
        match compactLoop arr bufread 0 lp (lp / 256 + 2) with
        | none => .fatal
        | some (arr1, bufread1, _) =>
          if arr1.getD (msgend - 1) 0 ≠ 0 then
            if bufread1 < msgend then .crash
            else
              let arr2 := writeBytes (memmove arr1 (msgend + 1) msgend (bufread1 - msgend))
                msgend [0]
              mkDecodeMsg arr2 (msgend + 1) bufread1
          else mkDecodeMsg arr1 msgend bufread1

/-- Drive `get_next_icb_msg` until the buffer is exhausted, collecting each
returned `(message bytes, *msglen)` pair; `none` if decoding gets stuck,
crashes, or dies before consuming everything. -/
def decodeAll : Nat → List Nat → Option (List (List Nat × Nat))
  | 0, _ => none
  | fuel + 1, bs =>
    if bs.isEmpty then some []
    else
      match get_next_icb_msg bs with
      | .msg m len (some rest) => (decodeAll fuel rest).map ((m, len) :: ·)
      | _ => none

/-! ## Protocol state machine: `proceed_icb_msg` (oicb.c:775-920),
`proceed_user_input` (oicb.c:546-574), `proceed_cmd_result*`,
`proceed_user_list`, `proceed_group_list`.

The display side effects that depend on the clock or on `vis(3)` rendering
(`proceed_chat_msg` and the list formatters) are abstracted as constructors
carrying their raw inputs: no claim inspects the rendered text.  `err(...)`
(process termination with an error) is `none`. -/

/-- The byte list of an ASCII string literal. -/
def bytes (s : String) : List Nat := s.toList.map Char.toNat

/-- The session states (oicb.c:53-59). -/
inductive St where
  | Connecting : St
  | Connected : St
  | LoginSent : St
  | Chat : St
  | CommandSent : St
deriving DecidableEq

/-- The `srv_features` bit mask (oicb.c:107-110), `Ping = 0x01`,
`ExtPkt = 0x02`, modelled as two named bits. -/
structure Features where
  ping : Bool
  extpkt : Bool
deriving DecidableEq

/-- The global C strings `nick`, `room`, `hostname`. -/
structure Ctx where
  nick : List Nat
  room : List Nat
  hostname : List Nat
deriving DecidableEq

/-- The mutable globals the message handlers touch: `state`, `srv_features`,
`want_exit`, `last_cmd_has_nl`. -/
structure Sess where
  st : St
  features : Features
  wantExit : Bool
  lastCmdHasNl : Bool
deriving DecidableEq

/-- Initial global values: `state = Connecting`, `srv_features = Ping`,
`want_exit = 0`, `last_cmd_has_nl = 0`. -/
def initialSess : Sess := ⟨.Connecting, ⟨true, false⟩, false, false⟩

/-- One queued display item.  `line` is a literal `push_stdout_msg` (the task
stores the C string, i.e. up to the first NUL); the other constructors
abstract time/vis-dependent renderings by their raw inputs. -/
inductive Out where
  | line (text : List Nat) : Out
  | chat (typ : Nat) (author text : List Nat) : Out
  | cmdResult (raw : List Nat) : Out
  | userList (raw : List Nat) : Out
  | groupList (raw : List Nat) : Out
deriving DecidableEq

/-- Result of a non-fatal `proceed_icb_msg`: the new globals, the display
queue entries pushed, and the logical messages handed to `push_icb_msg`. -/
structure StepOut where
  sess : Sess
  outs : List Out
  net : List (Nat × List Nat)
deriving DecidableEq

/-- The error text the server sends when it does not implement ping-pong
(oicb.c:817). -/
def pingSentinel : List Nat := bytes "Undefined message type 108"

/-- The `nmsg` template of the default branch (oicb.c:913-916) with its
placeholder (byte 39 is the quote) replaced by the received type byte. -/
def unsupportedMsg (typ : Nat) : List Nat :=
  bytes "unsupported message of type " ++ [39, typ, 39] ++ bytes ", ignored" ++ [10]

/-- The login message built in the type-j handler (oicb.c:878):
`nick \001 nick \001 room \001 login \001`. -/
def loginMsg (ctx : Ctx) : List Nat :=
  cstr ctx.nick ++ 1 :: cstr ctx.nick ++ 1 :: cstr ctx.room ++ 1 :: bytes "login" ++ [1]

/-- Model of `proceed_icb_msg(msg, len)` with `typ = msg[0]` and `payload` the bytes
after it (oicb.c:775-920). `none` models the fatal `err` exits
(`err_unexpected_msg`, `err_invalid_msg`, version mismatch). -/
def proceed_icb_msg (ctx : Ctx) (s : Sess) (typ : Nat) (payload : List Nat) : Option StepOut :=
  if typ = 97 then      -- case a: login okay
    if s.st ≠ .LoginSent then none
    else some ⟨{ s with st := .Chat },
      [.line (bytes "Logged in to room "), .line (cstr ctx.room), .line (bytes " as "),
        .line (cstr ctx.nick), .line [10]], []⟩
  else if typ = 98 ∨ typ = 99 ∨ typ = 100 ∨ typ = 102 then   -- cases b, c, d, f
    let s1 := if s.st = .CommandSent then { s with st := .Chat } else s
    if s.st ≠ .CommandSent ∧ s.st ≠ .Chat then none
    else
      match strchrIdx 1 payload with
      | none => none
      | some i => some ⟨s1, [.chat typ (payload.take i) (cstr (payload.drop (i + 1)))], []⟩
  else if typ = 101 then    -- case e: error
    let s1 := if s.st ≠ .Chat ∧ s.st ≠ .CommandSent then { s with wantExit := true } else s
    if cstr payload = pingSentinel then
      some ⟨{ s1 with features := { s1.features with ping := false } }, [], []⟩
    else some ⟨s1, [.chat 101 (cstr ctx.hostname) (cstr payload)], []⟩
  else if typ = 103 then    -- case g: exit
    if s.st ≠ .Chat then none
    else some ⟨{ s with wantExit := true },
      [.line (bytes "ICB: server said bye-bye" ++ [10])], []⟩
  else if typ = 105 then    -- case i: command result
    if s.st ≠ .CommandSent then none
    else
      match strchrIdx 1 payload with
      | none => none
      | some i =>
        let outtype := payload.take i
        let rest := payload.drop (i + 1)
        if outtype = [99, 111] then        -- co
          some ⟨{ s with lastCmdHasNl := rest.getD (rest.length - 1) 0 == 10 },
            [.cmdResult rest], []⟩
        else if outtype = [101, 99] then   -- ec
          if s.lastCmdHasNl then some ⟨{ s with st := .Chat, lastCmdHasNl := false }, [], []⟩
          else some ⟨{ s with st := .Chat }, [.line [10]], []⟩
        else if outtype = [119, 108] then some ⟨s, [.userList rest], []⟩   -- wl
        else if outtype = [119, 103] then some ⟨s, [.groupList rest], []⟩  -- wg
        else if outtype = [119, 104] ∨ outtype = [103, 104] ∨ outtype = [99, 104] ∨
            outtype = [99] then some ⟨s, [], []⟩     -- wh, gh, ch, c: ignored
        else none
  else if typ = 106 then    -- case j: protocol
    if s.st ≠ .Connected then none
    else
      let ver := match strchrIdx 1 payload with
        | some i => payload.take i
        | none => cstr payload
      if ver ≠ [49] then none
      else some ⟨{ s with st := .LoginSent }, [], [(97, loginMsg ctx)]⟩
  else if typ = 107 then    -- case k: beep
    if s.st ≠ .Chat then none
    else some ⟨s, [.chat 107 (bytes "SERVER") (bytes "BEEP!")], []⟩
  else if typ = 108 then some ⟨s, [], [(109, payload)]⟩    -- case l: ping
  else if typ = 109 then some ⟨s, [], []⟩                  -- case m: pong
  else if typ = 110 then                                   -- case n: no-op
    if s.st ≠ .Chat then none else some ⟨s, [], []⟩
  else some ⟨s, [.line (cstr (unsupportedMsg typ))], []⟩   -- default

/-- The message types `proceed_icb_msg` has a case for. -/
def handledTypes : List Nat := [97, 98, 99, 100, 101, 102, 103, 105, 106, 107, 108, 109, 110]

/-- Model of `proceed_user_input(line)` (oicb.c:546-574); `line = none` is the
libreadline end-of-input callback.  Returns the new globals and the logical
messages handed to `push_icb_msg` (history logging is out of scope). -/
def proceed_user_input (s : Sess) (line : Option (List Nat)) : Sess × List (Nat × List Nat) :=
  match line with
  | none => ({ s with wantExit := true }, [])
  | some l =>
    if (l.dropWhile (fun c => isspace c)).isEmpty then (s, [])
    else if l.getD 0 0 = 47 ∧ l.getD 1 0 ≠ 0 then
      let cmd := l.drop 1
      let n := strcspn cmd
      let cmd2 := if n < cmd.length then cmd.set n 1 else cmd
      ({ s with st := .CommandSent }, [(104, cmd2)])
    else (s, [(98, l)])

/-- An event consumed by the handlers: a decoded inbound message or a
completed line of user input. -/
inductive Ev where
  | net (typ : Nat) (payload : List Nat) : Ev
  | user (line : Option (List Nat)) : Ev

/-- The session-global effect of one event (`none` = fatal `err`). -/
def runStep (ctx : Ctx) (s : Sess) : Ev → Option Sess
  | .net typ payload => (proceed_icb_msg ctx s typ payload).map (·.sess)
  | .user line => some (proceed_user_input s line).1

/-- Fold `runStep` over an event trace. -/
def run (ctx : Ctx) : Sess → List Ev → Option Sess
  | s, [] => some s
  | s, e :: es =>
    match runStep ctx s e with
    | none => none
    | some s2 => run ctx s2 es

/-! ## Outbound task queues: `struct icb_task`, `push_data`, `proceed_output`
(oicb.c:76-83, 502-541).

`it_len` always equals the length of the task data (every call site sets it
to the byte count it copies in), so the data list carries the length.
`proceed_output(q, fd)` is modelled against a non-blocking destination that
accepts `avail` more bytes before returning EAGAIN: `push_data` then
consumes `min(remaining bytes of the task, remaining capacity)`. -/

/-- One queued `struct icb_task`: `it_ndone`, the `it_len = it_data.length`
bytes of data, and whether an `it_cb` completion callback is attached. -/
structure IcbTask where
  it_ndone : Nat
  it_data : List Nat
  it_cb : Bool
deriving DecidableEq

/-- The bytes of a queue still awaiting delivery, in order. -/
def pendingBytes (q : List IcbTask) : List Nat :=
  (q.map fun t => t.it_data.drop t.it_ndone).flatten

/-- Model of `proceed_output(q, fd)` where the destination accepts `avail` bytes:
returns the queue afterwards, the bytes written to the destination in
order, and the tasks completed (popped with their callback invoked, in
order). -/
def proceed_output : List IcbTask → Nat → List IcbTask × List Nat × List IcbTask
  | [], _ => ([], [], [])
  | t :: ts, avail =>
    let n := min (t.it_data.length - t.it_ndone) avail
    let written := (t.it_data.drop t.it_ndone).take n
    let t2 : IcbTask := { t with it_ndone := t.it_ndone + n }
    if t2.it_ndone < t.it_data.length then (t2 :: ts, written, [])
    else
      let r := proceed_output ts (avail - n)
      (r.1, written ++ r.2.1, t2 :: r.2.2)

/-! ## Helper lemmas about the word-boundary scan and the chunk loop -/

theorem wsScanIdx_some (src : List Nat) :
    ∀ j i, wsScanIdx src j = some i →
      1 ≤ i ∧ i ≤ j ∧ (isblank (src.getD i 0) || ispunct (src.getD i 0)) = true ∧
        ∀ k, i < k → k ≤ j → (isblank (src.getD k 0) || ispunct (src.getD k 0)) = false := by
  intro j
  induction j with
  | zero => intro i h; simp [wsScanIdx] at h
  | succ j ih =>
    intro i h
    rw [wsScanIdx] at h
    split at h
    · rename_i hwb
      cases h
      refine ⟨by omega, by omega, hwb, ?_⟩
      intro k hk1 hk2
      omega
    · rename_i hwb
      obtain ⟨h1, h2, h3, h4⟩ := ih i h
      refine ⟨h1, by omega, h3, ?_⟩
      intro k hk1 hk2
      rcases Nat.lt_or_ge k (j + 1) with hk | hk
      · exact h4 k hk1 (by omega)
      · have : k = j + 1 := by omega
        subst this
        simpa using hwb

theorem wsScanIdx_eq_none (src : List Nat) :
    ∀ j, wsScanIdx src j = none →
      ∀ k, 1 ≤ k → k ≤ j → (isblank (src.getD k 0) || ispunct (src.getD k 0)) = false := by
  intro j
  induction j with
  | zero => intro _ k hk1 hk2; omega
  | succ j ih =>
    intro h k hk1 hk2
    rw [wsScanIdx] at h
    split at h
    · cases h
    · rename_i hwb
      rcases Nat.lt_or_ge k (j + 1) with hk | hk
      · exact ih h k hk1 (by omega)
      · have : k = j + 1 := by omega
        subst this
        simpa using hwb

theorem chunkLen_le_length (wb : Bool) (maxlen : Nat) (src : List Nat) :
    chunkLen wb maxlen src ≤ src.length := by
  unfold chunkLen
  split
  · rename_i hlong
    split
    · rcases h : wsScanIdx src (maxlen - 1) with _ | i
      · simp only [h, Option.map_none', Option.getD_none]; omega
      · have := wsScanIdx_some src (maxlen - 1) i h
        simp only [h, Option.map_some', Option.getD_some]
        omega
    · omega
  · omega

theorem chunkLen_le_maxlen (wb : Bool) (maxlen : Nat) (src : List Nat)
    (h : maxlen < src.length) : chunkLen wb maxlen src ≤ maxlen := by
  unfold chunkLen
  rw [if_pos h]
  split
  · rcases hscan : wsScanIdx src (maxlen - 1) with _ | i
    · simp [hscan]
    · have := wsScanIdx_some src (maxlen - 1) i hscan
      simp only [hscan, Option.map_some', Option.getD_some]
      omega
  · omega

theorem chunkLen_pos (wb : Bool) (maxlen : Nat) (src : List Nat)
    (h : 1 ≤ maxlen) (h2 : 1 ≤ src.length) : 1 ≤ chunkLen wb maxlen src := by
  unfold chunkLen
  split
  · split
    · rcases hscan : wsScanIdx src (maxlen - 1) with _ | i
      · simp only [hscan, Option.map_none', Option.getD_none]; omega
      · simp [hscan]
    · omega
  · omega

theorem encWSChunksGo_flatten (wb : Bool) (maxlen : Nat) :
    ∀ (fuel : Nat) (src : List Nat), (encWSChunksGo wb maxlen fuel src).flatten = src := by
  intro fuel
  induction fuel with
  | zero => intro src; simp [encWSChunksGo]
  | succ fuel ih =>
    intro src
    rw [encWSChunksGo]
    split
    · rename_i hle
      simp [List.take_of_length_le hle]
    · simp [ih]

theorem encWSChunks_flatten (wb : Bool) (maxlen : Nat) (src : List Nat) :
    (encWSChunks wb maxlen src).flatten = src :=
  encWSChunksGo_flatten wb maxlen (src.length + 1) src

theorem encWSChunks_ne_nil (wb : Bool) (maxlen : Nat) (src : List Nat) :
    encWSChunks wb maxlen src ≠ [] := by
  rw [encWSChunks, encWSChunksGo]
  split <;> simp

theorem encWSChunksGo_length_le_maxlen (wb : Bool) (maxlen : Nat) :
    ∀ (fuel : Nat) (src : List Nat), src.length < fuel →
      src.length ≤ maxlen ∨ 1 ≤ maxlen →
      ∀ c ∈ encWSChunksGo wb maxlen fuel src, c.length ≤ maxlen := by
  intro fuel
  induction fuel with
  | zero => intro src h; omega
  | succ fuel ih =>
    intro src hfuel hx
    rw [encWSChunksGo]
    split
    · rename_i hle
      intro c hc
      simp only [List.mem_singleton] at hc
      subst hc
      simp only [List.length_take]
      rcases Nat.lt_or_ge maxlen src.length with hl | hl
      · have := chunkLen_le_maxlen wb maxlen src hl
        omega
      · omega
    · rename_i hgt
      intro c hc
      have hl : maxlen < src.length := by
        rcases Nat.lt_or_ge maxlen src.length with hl | hl
        · exact hl
        · exfalso
          have : chunkLen wb maxlen src = src.length := by
            unfold chunkLen
            rw [if_neg (by omega)]
          omega
      have hml : 1 ≤ maxlen := by
        rcases hx with hx | hx
        · omega
        · exact hx
      have hpos : 1 ≤ chunkLen wb maxlen src :=
        chunkLen_pos wb maxlen src hml (by omega)
      rcases List.mem_cons.mp hc with hc | hc
      · subst hc
        have := chunkLen_le_maxlen wb maxlen src hl
        simp only [List.length_take]
        omega
      · exact ih (src.drop (chunkLen wb maxlen src))
          (by simp only [List.length_drop]; omega) (Or.inr hml) c hc

theorem encWSChunks_length_le_maxlen (wb : Bool) (maxlen : Nat) (src : List Nat)
    (h : src.length ≤ maxlen ∨ 1 ≤ maxlen) :
    ∀ c ∈ encWSChunks wb maxlen src, c.length ≤ maxlen :=
  encWSChunksGo_length_le_maxlen wb maxlen (src.length + 1) src (by omega) h

/-! ## Helper lemmas about the decoder -/

theorem findLastPkt_nonzero (arr : List Nat) (bufread fuel : Nat) (h : arr.getD 0 0 ≠ 0) :
    findLastPkt arr bufread 0 (fuel + 1) = some 0 := by
  rw [findLastPkt]
  rw [if_neg h]

theorem compactLoop_zero (arr : List Nat) (bufread fuel : Nat) :
    compactLoop arr bufread 0 0 (fuel + 2) = some (arr, bufread, 0) := by
  rw [compactLoop]
  rw [if_pos (Nat.le_refl 0)]
  rw [if_neg (by simp)]
  rw [if_pos rfl]
  rw [compactLoop]
  rw [if_neg (by omega)]

/-- Decoding a buffer that starts with one standard-mode-shaped packet
`[B+2][typ][body...][NUL]` returns exactly that message and keeps the
following bytes.  This is the shape `push_icb_msg_ws` emits: the first slot
has a nonzero length byte, so the stride walk stops immediately, the
compaction loop visits only the first slot, and the packet's own trailing
NUL ends the message. -/
theorem get_next_icb_msg_packet (typ : Nat) (c rest : List Nat) :
    get_next_icb_msg ((c.length + 2) :: typ :: (c ++ 0 :: rest))
      = .msg (typ :: c) (c.length + 1) (some rest) := by
  have harr : ((c.length + 2) :: typ :: (c ++ 0 :: rest)) ++ [0]
      = (c.length + 2) :: typ :: (c ++ 0 :: (rest ++ [0])) := by
    simp
  have hblen : ((c.length + 2) :: typ :: (c ++ 0 :: rest)).length
      = c.length + 3 + rest.length := by
    simp
    omega
  have hA0 : ((c.length + 2) :: typ :: (c ++ 0 :: (rest ++ [0]))).getD 0 0
      = c.length + 2 := List.getD_cons_zero
  have hAL : ((c.length + 2) :: typ :: (c ++ 0 :: (rest ++ [0]))).getD (c.length + 2) 0
      = 0 := by
    rw [show c.length + 2 = (c.length + 1) + 1 from rfl, List.getD_cons_succ]
    rw [show c.length + 1 = c.length + 1 from rfl, List.getD_cons_succ]
    rw [List.getD_append_right _ _ _ _ (Nat.le_refl _)]
    simp
  unfold get_next_icb_msg
  rw [harr, hblen]
  rw [if_neg (by omega)]
  rw [findLastPkt_nonzero _ _ _ (by rw [hA0]; omega)]
  dsimp only
  rw [hA0]
  rw [if_neg (by omega)]
  rw [compactLoop_zero]
  dsimp only
  have hidx : 0 + 1 + (c.length + 2) - 1 = c.length + 2 := by omega
  rw [hidx, hAL]
  rw [if_neg (by simp)]
  unfold mkDecodeMsg
  have hm : ((((c.length + 2) :: typ :: (c ++ 0 :: (rest ++ [0]))).drop 1).take
      (0 + 1 + (c.length + 2) - 2)) = typ :: c := by
    rw [show (0 + 1 + (c.length + 2) - 2) = c.length + 1 from by omega]
    rw [List.drop_one]
    simp only [List.tail_cons]
    rw [List.take_succ_cons]
    rw [List.take_append_of_le_length (Nat.le_refl _)]
    simp
  have hrest : (((c.length + 2) :: typ :: (c ++ 0 :: (rest ++ [0]))).drop
      (0 + 1 + (c.length + 2))) = rest ++ [0] := by
    rw [show (0 + 1 + (c.length + 2)) = (c.length + 1) + 2 from by omega]
    rw [List.drop_succ_cons, List.drop_succ_cons]
    rw [show c.length + 1 = c.length + 1 from rfl]
    have : c.length + 1 = c.length + 1 := rfl
    rw [show (c ++ 0 :: (rest ++ [0])) = (c ++ [0]) ++ (rest ++ [0]) from by simp]
    rw [List.drop_left' (by simp)]
  rw [if_pos (by omega)]
  rw [hm, hrest]
  have htake : (rest ++ [0]).take (c.length + 3 + rest.length - (0 + 1 + (c.length + 2)))
      = rest := by
    rw [show c.length + 3 + rest.length - (0 + 1 + (c.length + 2)) = rest.length from
      by omega]
    rw [List.take_append_of_le_length (Nat.le_refl _)]
    simp
  rw [htake]
  rw [show (0 + 1 + (c.length + 2) - 2) = c.length + 1 from by omega]

theorem commonLen_le (typ : Nat) (msg : List Nat) : commonLen typ msg ≤ 67 := by
  unfold commonLen
  split
  · rcases h : strchrIdx 32 msg with _ | i
    · simp [h]
    · simp only [h]
      split
      · rename_i hlt
        have hmax : NICKNAME_MAX = 64 := rfl
        omega
      · omega
  · omega

/-- Decoding a back-to-back stream of standard-mode-shaped packets yields
one message per packet, in order. -/
theorem decodeAll_packets (typ : Nat) (chunks : List (List Nat)) :
    decodeAll (chunks.length + 1)
        ((chunks.map fun c => (c.length + 2) :: typ :: (c ++ [0])).flatten)
      = some (chunks.map fun c => (typ :: c, c.length + 1)) := by
  induction chunks with
  | nil => simp [decodeAll]
  | cons c cs ih =>
    have hstream : (((c :: cs).map fun c => (c.length + 2) :: typ :: (c ++ [0])).flatten)
        = (c.length + 2) :: typ ::
            (c ++ 0 :: ((cs.map fun c => (c.length + 2) :: typ :: (c ++ [0])).flatten)) := by
      simp
    rw [hstream]
    show decodeAll (cs.length + 1 + 1) _ = _
    rw [decodeAll]
    rw [if_neg (by simp)]
    rw [get_next_icb_msg_packet]
    dsimp only
    rw [ih]
    simp

/-- For a payload of at most 252 bytes the extended encoder emits one slot
shaped exactly like a standard packet. -/
theorem push_icb_msg_extended_single (typ : Nat) (p : List Nat) (h : p.length ≤ 252) :
    push_icb_msg_extended typ p = (p.length + 2) :: typ :: (p ++ 0 :: []) := by
  have h1 : extMsgcnt p = 1 := by unfold extMsgcnt; omega
  have h2 : extSzfinal p = p.length + 1 := by unfold extSzfinal; omega
  unfold push_icb_msg_extended extSlots extContSlots extFinalSlot
  rw [h1, h2]
  simp only [Nat.sub_self, List.range_zero, List.map_nil, List.nil_append]
  have htake : ((p.drop (254 * (1 - 1)) ++ [0]).take (p.length + 1)) = p ++ [0] := by
    simp
  rw [htake]
  have hrep : p.length + 1 - 254 * (1 - 1) - (p.length + 1) = 0 := by omega
  rw [hrep]
  simp

/-- When the common prefix is empty and the chunk is short enough the length
byte does not wrap, so a `wsPacket` is the raw packet shape. -/
theorem wsPacket_nil (typ : Nat) (c : List Nat) (h : c.length + 2 < 256) :
    wsPacket typ [] c = (c.length + 2) :: typ :: (c ++ [0]) := by
  unfold wsPacket
  simp [Nat.mod_eq_of_lt (by simpa using h)]

/-! ## The claims -/

/-- C1 (corrected).  Standard mode: when the message carries no private
common prefix (`commonlen = 0`), feeding the emitted packet stream back
into `get_next_icb_msg` yields one message per chunk (one or more), each
with the original type byte, whose concatenated payloads in emission order
equal the original payload.  Extended mode: a payload of at most 252 bytes
(a single slot) decodes back to exactly the original message.  The original
claim fails for private messages (the addressing prefix is re-sent in every
chunk, so the concatenation repeats it) and for extended payloads of length
≥ 253 (length ≡ 253 mod 254 drops the final chunk; multi-slot messages
overshoot the reported length): see the counterexample. -/
theorem oicb_c1 (typ nicklen : Nat) (payload : List Nat) (hn : nicklen ≤ 63) :
    (commonLen typ payload = 0 →
      wsChunksOf nicklen typ payload ≠ [] ∧
      (wsChunksOf nicklen typ payload).flatten = payload ∧
      decodeAll ((wsChunksOf nicklen typ payload).length + 1)
          ((push_icb_msg_ws nicklen typ payload).flatten)
        = some ((wsChunksOf nicklen typ payload).map fun c => (typ :: c, c.length + 1))) ∧
    (payload.length ≤ 252 →
      decodeAll 2 (push_icb_msg_extended typ payload)
        = some [(typ :: payload, payload.length + 1)]) := by
  constructor
  · intro hcl
    have hml : (1 : Nat) ≤ 253 - (nicklen + 1) - commonLen typ payload := by
      rw [hcl]; omega
    have hbound := encWSChunks_length_le_maxlen (wordWrap typ payload)
      (253 - (nicklen + 1) - commonLen typ payload) (payload.drop (commonLen typ payload))
      (Or.inr hml)
    refine ⟨?_, ?_, ?_⟩
    · unfold wsChunksOf
      exact encWSChunks_ne_nil _ _ _
    · unfold wsChunksOf
      rw [hcl]
      simp [encWSChunks_flatten]
    · have hmap : push_icb_msg_ws nicklen typ payload
          = (wsChunksOf nicklen typ payload).map
              fun c => (c.length + 2) :: typ :: (c ++ [0]) := by
        unfold push_icb_msg_ws
        rw [hcl]
        simp only [List.take_zero]
        apply List.map_congr_left
        intro c hc
        have hc2 := hbound c (by simpa [wsChunksOf] using hc)
        exact wsPacket_nil typ c (by omega)
      rw [hmap]
      exact decodeAll_packets typ _
  · intro hp
    rw [push_icb_msg_extended_single typ payload hp]
    show decodeAll (1 + 1) _ = _
    rw [decodeAll]
    rw [if_neg (by simp)]
    rw [get_next_icb_msg_packet]
    dsimp only
    rw [decodeAll]
    simp

/-- Witness for C1 at type byte `b`, nickname length 0, payload "hi". -/
theorem oicb_c1_witness :
    (wsChunksOf 0 98 [104, 105] ≠ [] ∧
     (wsChunksOf 0 98 [104, 105]).flatten = [104, 105] ∧
     decodeAll ((wsChunksOf 0 98 [104, 105]).length + 1)
         ((push_icb_msg_ws 0 98 [104, 105]).flatten)
       = some ((wsChunksOf 0 98 [104, 105]).map fun c => (98 :: c, c.length + 1))) ∧
    decodeAll 2 (push_icb_msg_extended 98 [104, 105]) = some [([98, 104, 105], 3)] := by
  have h := oicb_c1 98 0 [104, 105] (by decide)
  refine ⟨h.1 (by decide), ?_⟩
  have h2 := h.2 (by decide)
  simpa using h2

/-- C2 (confirmed).  Under the nickname bound `main` enforces
(`strlen(nick) < NICKNAME_MAX ≤ 64`), every packet `push_icb_msg_ws` queues
is at most 255 bytes on the wire (length byte included), and every chunk
carries at most `253 - nicklen` payload bytes, the common prefix of private
messages not counted. -/
theorem oicb_c2 (nicklen typ : Nat) (msg : List Nat) (hn : nicklen ≤ 63) :
    (∀ p ∈ push_icb_msg_ws nicklen typ msg, p.length ≤ 255) ∧
    (∀ c ∈ wsChunksOf nicklen typ msg, c.length ≤ 253 - nicklen) := by
  have hcl := commonLen_le typ msg
  have hml : 1 ≤ 253 - (nicklen + 1) - commonLen typ msg := by omega
  have hbound := encWSChunks_length_le_maxlen (wordWrap typ msg)
    (253 - (nicklen + 1) - commonLen typ msg) (msg.drop (commonLen typ msg)) (Or.inr hml)
  constructor
  · intro p hp
    unfold push_icb_msg_ws at hp
    rcases List.mem_map.mp hp with ⟨c, hc, rfl⟩
    have hc2 := hbound c (by simpa [wsChunksOf] using hc)
    have hcommon : (msg.take (commonLen typ msg)).length ≤ commonLen typ msg := by
      simp [List.length_take]
    unfold wsPacket
    simp only [List.length_cons, List.length_append, List.length_nil]
    omega
  · intro c hc
    have hc2 := hbound c (by simpa [wsChunksOf] using hc)
    omega

/-- Witness for C2 at nickname length 0, type byte `b`, payload "hi". -/
theorem oicb_c2_witness :
    (∀ p ∈ push_icb_msg_ws 0 98 [104, 105], p.length ≤ 255) ∧
    (∀ c ∈ wsChunksOf 0 98 [104, 105], c.length ≤ 253 - 0) :=
  oicb_c2 0 98 [104, 105] (by decide)

set_option maxRecDepth 40000 in
/-- C3 (code bug), evaluated at the failing input: a payload of 253 bytes
(total length with terminator ≡ 0 mod 254) makes `szfinal = len % 254 = 0`,
so the single emitted slot has length byte `0 + 1 = 1` and carries none of
the payload (the 254 trailing bytes are the `calloc` zeros), while the
claimed invariant requires the length byte to be the actual trailing byte
count `1 + 253 + 1 = 255`. -/
theorem oicb_c3_eval :
    extSlots 98 (List.replicate 253 120) = [1 :: 98 :: List.replicate 254 0] ∧
    1 + (List.replicate 253 (120 : Nat)).length + 1 = 255 ∧ (1 : Nat) ≠ 255 := by
  decide

/-- C6 (corrected).  For a broadcast (type `b`) or private message (type
`h` with the `m\001` marker) whose first chunk is cut at the hard limit —
the word-wrap scan runs exactly when `wordWrap` holds — the scan
works on the prefix-stripped source `src` with the hard limit
`maxlen = 253 - (nicklen + 1) - commonlen`: when a whitespace/punctuation
byte occurs at a position of the chunk other than its very first byte, the
boundary falls immediately after the last such byte (the chunk re-headed
with the common prefix); otherwise — including when the only such byte is
the chunk's first byte, which the scan `p > src` excludes — the split is at
the hard limit.  The original claim, which admits boundary bytes at
position 0, is refuted by the counterexample. -/
theorem oicb_c6 (nicklen typ : Nat) (msg : List Nat) (hn : nicklen ≤ 63)
    (hwb : wordWrap typ msg = true) :
    ∀ (maxlen : Nat) (src common : List Nat),
      maxlen = 253 - (nicklen + 1) - commonLen typ msg →
      src = msg.drop (commonLen typ msg) →
      common = msg.take (commonLen typ msg) →
      maxlen < src.length →
      ((∃ i, 1 ≤ i ∧ i < maxlen ∧
          (isblank (src.getD i 0) || ispunct (src.getD i 0)) = true) →
        ∃ i, 1 ≤ i ∧ i < maxlen ∧
          (isblank (src.getD i 0) || ispunct (src.getD i 0)) = true ∧
          (∀ j, j < maxlen → i < j →
            (isblank (src.getD j 0) || ispunct (src.getD j 0)) = false) ∧
          (push_icb_msg_ws nicklen typ msg).headD []
            = wsPacket typ common (src.take (i + 1))) ∧
      ((∀ i, i < maxlen → 1 ≤ i →
          (isblank (src.getD i 0) || ispunct (src.getD i 0)) = false) →
        (push_icb_msg_ws nicklen typ msg).headD []
          = wsPacket typ common (src.take maxlen)) := by
  intro maxlen src common hml hsrc hcom hlong
  subst hml
  subst hsrc
  subst hcom
  have hcl67 := commonLen_le typ msg
  have hmax1 : 1 ≤ 253 - (nicklen + 1) - commonLen typ msg := by omega
  have hhead : (push_icb_msg_ws nicklen typ msg).headD []
      = wsPacket typ (msg.take (commonLen typ msg))
          ((msg.drop (commonLen typ msg)).take
            (chunkLen true (253 - (nicklen + 1) - commonLen typ msg)
              (msg.drop (commonLen typ msg)))) := by
    unfold push_icb_msg_ws wsChunksOf
    rw [hwb]
    rw [encWSChunks, encWSChunksGo]
    split
    · simp
    · simp
  have hchunk : chunkLen true (253 - (nicklen + 1) - commonLen typ msg)
      (msg.drop (commonLen typ msg))
      = ((wsScanIdx (msg.drop (commonLen typ msg))
            (253 - (nicklen + 1) - commonLen typ msg - 1)).map (· + 1)).getD
          (253 - (nicklen + 1) - commonLen typ msg) := by
    unfold chunkLen
    rw [if_pos hlong, if_pos rfl]
  constructor
  · intro hex
    rcases hscan : wsScanIdx (msg.drop (commonLen typ msg))
        (253 - (nicklen + 1) - commonLen typ msg - 1) with _ | i
    · exfalso
      obtain ⟨i, hi1, hi2, hi3⟩ := hex
      have := wsScanIdx_eq_none (msg.drop (commonLen typ msg))
        (253 - (nicklen + 1) - commonLen typ msg - 1) hscan i hi1 (by omega)
      rw [this] at hi3
      cases hi3
    · obtain ⟨h1, h2, h3, h4⟩ := wsScanIdx_some (msg.drop (commonLen typ msg))
        (253 - (nicklen + 1) - commonLen typ msg - 1) i hscan
      refine ⟨i, h1, by omega, h3, ?_, ?_⟩
      · intro j hj1 hj2
        exact h4 j hj2 (by omega)
      · rw [hhead, hchunk, hscan]
        simp
  · intro hnone
    rcases hscan : wsScanIdx (msg.drop (commonLen typ msg))
        (253 - (nicklen + 1) - commonLen typ msg - 1) with _ | i
    · rw [hhead, hchunk, hscan]
      simp
    · exfalso
      obtain ⟨h1, h2, h3, h4⟩ := wsScanIdx_some (msg.drop (commonLen typ msg))
        (253 - (nicklen + 1) - commonLen typ msg - 1) i hscan
      have := hnone i (by omega) h1
      rw [this] at h3
      cases h3

set_option maxRecDepth 40000 in
/-- Witness for C6, both halves of the scanned-message family.
Private message `m\001a <50 * x><space><250 * y>` with nickname length 1:
the common prefix is 4 bytes, the stripped source is cut right after its
whitespace at position 50.  Broadcast of 300 `x` bytes with nickname
length 63: no boundary, cut at the hard limit 189. -/
theorem oicb_c6_witness :
    (∃ i, 1 ≤ i ∧ i < 247 ∧
      (isblank ((List.replicate 50 120 ++ 32 :: List.replicate 250 121).getD i 0)
        || ispunct ((List.replicate 50 120 ++ 32 :: List.replicate 250 121).getD i 0))
        = true ∧
      (∀ j, j < 247 → i < j →
        (isblank ((List.replicate 50 120 ++ 32 :: List.replicate 250 121).getD j 0)
          || ispunct ((List.replicate 50 120 ++ 32 :: List.replicate 250 121).getD j 0))
          = false) ∧
      (push_icb_msg_ws 1 104
          ([109, 1, 97, 32] ++ List.replicate 50 120 ++ 32 :: List.replicate 250 121)).headD []
        = wsPacket 104 [109, 1, 97, 32]
            ((List.replicate 50 120 ++ 32 :: List.replicate 250 121).take (i + 1))) ∧
    (push_icb_msg_ws 63 98 (List.replicate 300 120)).headD []
      = wsPacket 98 [] ((List.replicate 300 120).take 189) := by
  constructor
  · exact (oicb_c6 1 104
      ([109, 1, 97, 32] ++ List.replicate 50 120 ++ 32 :: List.replicate 250 121)
      (by decide) (by decide) 247
      (List.replicate 50 120 ++ 32 :: List.replicate 250 121) [109, 1, 97, 32]
      (by decide) (by decide) (by decide) (by decide)).1
      ⟨50, by decide, by decide, by decide⟩
  · exact (oicb_c6 63 98 (List.replicate 300 120) (by decide) (by decide) 189
      (List.replicate 300 120) [] (by decide) (by decide) (by decide) (by decide)).2
      (by decide)

set_option maxRecDepth 40000 in
/-- Counterexample to C6 as stated: nickname length 63 (hard limit 189) and
the payload `<space><189 * x>`.  A whitespace byte occurs within the first
chunk (at position 0), yet the boundary is the hard limit 189, not the
position immediately after that whitespace (1): the scan starts at `p > src`
and never looks at position 0. -/
theorem oicb_c6_counterexample :
    isblank ((32 :: List.replicate 189 120).getD 0 0) = true ∧
    (∀ j, j < 253 - (63 + 1) → 1 ≤ j →
      (isblank ((32 :: List.replicate 189 120).getD j 0)
        || ispunct ((32 :: List.replicate 189 120).getD j 0)) = false) ∧
    (push_icb_msg_ws 63 98 (32 :: List.replicate 189 120)).headD []
      = wsPacket 98 [] ((32 :: List.replicate 189 120).take (253 - (63 + 1))) ∧
    ((32 :: List.replicate 189 120).take (253 - (63 + 1))).length ≠ 0 + 1 := by
  decide

set_option maxRecDepth 40000 in
/-- Counterexample to C1 as stated.
(a) private message `m\001a <300 * x>` with nickname length 1: the decoder
returns all the same-type messages, but their concatenated payloads repeat
the 4-byte addressing prefix, so they do not equal the original payload;
(b) extended mode, payload of 253 `x` bytes: the decoder yields one message
whose payload is empty, not the original payload;
(c) extended mode, payload of 254 `x` bytes: the single reconstructed
message reports `*msglen = 257`, not the type byte plus 254 payload bytes. -/
theorem oicb_c1_counterexample :
    (((decodeAll 3 ((push_icb_msg_ws 1 104
          ([109, 1, 97, 32] ++ List.replicate 300 120)).flatten)).getD []).map
        (fun p => p.1.drop 1)).flatten ≠ [109, 1, 97, 32] ++ List.replicate 300 120 ∧
    (decodeAll 3 ((push_icb_msg_ws 1 104
        ([109, 1, 97, 32] ++ List.replicate 300 120)).flatten)).isSome = true ∧
    get_next_icb_msg (push_icb_msg_extended 98 (List.replicate 253 120))
      = .msg [98] 1 (some (List.replicate 253 0)) ∧
    (match get_next_icb_msg (push_icb_msg_extended 98 (List.replicate 254 120)) with
     | .msg _ len _ => len
     | _ => 0) = 257 := by
  decide


/-- C4 (confirmed).  The four transitions of the claim:
a type-`b` message in `Connecting` is a fatal unexpected message; a
type-`a` message in `LoginSent` moves to `Chat`; a user line starting with
`/` (and a nonzero byte after it) in `Chat` moves to `CommandSent`; a
type-`i` message with sub-type tag `ec` in `CommandSent` moves back to
`Chat`. -/
theorem oicb_c4 :
    (∀ (ctx : Ctx) (s : Sess) (payload : List Nat), s.st = .Connecting →
      proceed_icb_msg ctx s 98 payload = none) ∧
    (∀ (ctx : Ctx) (s : Sess) (payload : List Nat), s.st = .LoginSent →
      ∃ so, proceed_icb_msg ctx s 97 payload = some so ∧ so.sess.st = .Chat) ∧
    (∀ (s : Sess) (c : Nat) (rest : List Nat), s.st = .Chat → c ≠ 0 →
      (proceed_user_input s (some (47 :: c :: rest))).1.st = .CommandSent) ∧
    (∀ (ctx : Ctx) (s : Sess) (rest : List Nat), s.st = .CommandSent →
      ∃ so, proceed_icb_msg ctx s 105 (101 :: 99 :: 1 :: rest) = some so ∧
        so.sess.st = .Chat) := by
  refine ⟨?_, ?_, ?_, ?_⟩
  · intro ctx s payload hst
    simp [proceed_icb_msg, hst]
  · intro ctx s payload hst
    refine ⟨⟨{ s with st := .Chat },
      [.line (bytes "Logged in to room "), .line (cstr ctx.room), .line (bytes " as "),
        .line (cstr ctx.nick), .line [10]], []⟩, ?_, rfl⟩
    simp [proceed_icb_msg, hst]
  · intro s c rest hst hc
    simp [proceed_user_input, isspace, hc]
  · intro ctx s rest hst
    have hchr : strchrIdx 1 (101 :: 99 :: 1 :: rest) = some 2 := by
      simp [strchrIdx]
    rcases hnl : s.lastCmdHasNl with _ | _
    · refine ⟨⟨{ s with st := .Chat }, [.line [10]], []⟩, ?_, rfl⟩
      simp [proceed_icb_msg, hst, hchr, hnl]
    · refine ⟨⟨{ s with st := .Chat, lastCmdHasNl := false }, [], []⟩, ?_, rfl⟩
      simp [proceed_icb_msg, hst, hchr, hnl]

/-- Witness for C4: all four transitions at concrete inputs. -/
theorem oicb_c4_witness :
    proceed_icb_msg ⟨[110], [114], [104]⟩ ⟨.Connecting, ⟨true, false⟩, false, false⟩ 98 [97, 1, 98]
      = none ∧
    (∃ so, proceed_icb_msg ⟨[110], [114], [104]⟩ ⟨.LoginSent, ⟨true, false⟩, false, false⟩ 97 []
      = some so ∧ so.sess.st = .Chat) ∧
    (proceed_user_input ⟨.Chat, ⟨true, false⟩, false, false⟩ (some [47, 119])).1.st
      = .CommandSent ∧
    (∃ so, proceed_icb_msg ⟨[110], [114], [104]⟩ ⟨.CommandSent, ⟨true, false⟩, false, false⟩ 105
      [101, 99, 1] = some so ∧ so.sess.st = .Chat) :=
  ⟨oicb_c4.1 _ _ _ rfl, oicb_c4.2.1 _ _ _ rfl, oicb_c4.2.2.1 _ 119 [] rfl (by decide),
    oicb_c4.2.2.2 _ _ [] rfl⟩

/-- C8 (confirmed).  A chat message of type `b`, `c`, `d` or `f` (with the
`\001` separator its body must contain) received in `CommandSent` is
accepted and moves the state to `Chat`; in `Chat` it is accepted with the
state unchanged; in any other state these types are fatal (for every body,
well-formed or not, since the state check precedes the body check). -/
theorem oicb_c8 :
    (∀ (ctx : Ctx) (s : Sess) (typ : Nat) (payload : List Nat),
      (typ = 98 ∨ typ = 99 ∨ typ = 100 ∨ typ = 102) →
      s.st ≠ .Chat → s.st ≠ .CommandSent →
      proceed_icb_msg ctx s typ payload = none) ∧
    (∀ (ctx : Ctx) (s : Sess) (typ : Nat) (payload : List Nat) (i : Nat),
      (typ = 98 ∨ typ = 99 ∨ typ = 100 ∨ typ = 102) → s.st = .CommandSent →
      strchrIdx 1 payload = some i →
      proceed_icb_msg ctx s typ payload
        = some ⟨{ s with st := .Chat },
            [.chat typ (payload.take i) (cstr (payload.drop (i + 1)))], []⟩) ∧
    (∀ (ctx : Ctx) (s : Sess) (typ : Nat) (payload : List Nat) (i : Nat),
      (typ = 98 ∨ typ = 99 ∨ typ = 100 ∨ typ = 102) → s.st = .Chat →
      strchrIdx 1 payload = some i →
      proceed_icb_msg ctx s typ payload
        = some ⟨s, [.chat typ (payload.take i) (cstr (payload.drop (i + 1)))], []⟩) := by
  refine ⟨?_, ?_, ?_⟩
  · intro ctx s typ payload htyp h1 h2
    rcases htyp with rfl | rfl | rfl | rfl <;>
      simp [proceed_icb_msg, h1, h2]
  · intro ctx s typ payload i htyp hst hchr
    rcases htyp with rfl | rfl | rfl | rfl <;>
      simp [proceed_icb_msg, hst, hchr]
  · intro ctx s typ payload i htyp hst hchr
    rcases htyp with rfl | rfl | rfl | rfl <;>
      simp [proceed_icb_msg, hst, hchr]

/-- Witness for C8: a type-`b` message in `CommandSent`, in `Chat`, and in
`Connected` (fatal). -/
theorem oicb_c8_witness :
    proceed_icb_msg ⟨[110], [114], [104]⟩ ⟨.Connected, ⟨true, false⟩, false, false⟩ 98 [97, 1, 98]
      = none ∧
    proceed_icb_msg ⟨[110], [114], [104]⟩ ⟨.CommandSent, ⟨true, false⟩, false, false⟩ 98 [97, 1, 98]
      = some ⟨⟨.Chat, ⟨true, false⟩, false, false⟩, [.chat 98 [97] [98]], []⟩ ∧
    proceed_icb_msg ⟨[110], [114], [104]⟩ ⟨.Chat, ⟨true, false⟩, false, false⟩ 98 [97, 1, 98]
      = some ⟨⟨.Chat, ⟨true, false⟩, false, false⟩, [.chat 98 [97] [98]], []⟩ := by
  refine ⟨oicb_c8.1 _ _ 98 _ (by decide) (by decide) (by decide), ?_, ?_⟩
  · have h := oicb_c8.2.1 ⟨[110], [114], [104]⟩ ⟨.CommandSent, ⟨true, false⟩, false, false⟩
      98 [97, 1, 98] 1 (by decide) rfl (by decide)
    simpa using h
  · have h := oicb_c8.2.2 ⟨[110], [114], [104]⟩ ⟨.Chat, ⟨true, false⟩, false, false⟩
      98 [97, 1, 98] 1 (by decide) rfl (by decide)
    simpa using h

/-- C9 (confirmed).  A ping (type `l`) is answered by queueing a pong
(type `m`) carrying the ping's payload, in every session state and with no
other effect; an incoming pong (type `m`) is silently accepted in every
state with no effect at all. -/
theorem oicb_c9 :
    ∀ (ctx : Ctx) (s : Sess) (payload : List Nat),
      proceed_icb_msg ctx s 108 payload = some ⟨s, [], [(109, payload)]⟩ ∧
      proceed_icb_msg ctx s 109 payload = some ⟨s, [], []⟩ := by
  intro ctx s payload
  exact ⟨rfl, rfl⟩


/-- C10 (corrected).  A message whose type byte is outside the handled set
is never fatal: the state and the exit flag are untouched, nothing is sent,
and exactly one display line is queued — the template with the placeholder
replaced by the type byte.  The queued task holds the C string of that
buffer, which for every nonzero type byte is the full line; the original
claim also asserts the full line for type byte 0, where substituting the
NUL truncates it (see the counterexample). -/
theorem oicb_c10 (ctx : Ctx) (s : Sess) (typ : Nat) (payload : List Nat)
    (h : typ ∉ handledTypes) :
    proceed_icb_msg ctx s typ payload
      = some ⟨s, [.line (cstr (unsupportedMsg typ))], []⟩ ∧
    (typ ≠ 0 → cstr (unsupportedMsg typ) = unsupportedMsg typ) := by
  simp only [handledTypes, List.mem_cons, List.not_mem_nil, or_false, not_or] at h
  obtain ⟨h1, h2, h3, h4, h5, h6, h7, h8, h9, h10, h11, h12, h13⟩ := h
  constructor
  · simp [proceed_icb_msg, h1, h2, h3, h4, h5, h6, h7, h8, h9, h10, h11, h12, h13]
  · intro h0
    unfold cstr
    rw [List.takeWhile_eq_self_iff.mpr]
    intro a ha
    simp only [decide_eq_true_eq, ne_eq]
    intro hz
    subst hz
    unfold unsupportedMsg at ha
    rcases List.mem_append.mp ha with ha | ha
    · rcases List.mem_append.mp ha with ha | ha
      · rcases List.mem_append.mp ha with ha | ha
        · exact absurd ha (by decide)
        · simp only [List.mem_cons, List.not_mem_nil, or_false] at ha
          rcases ha with h39 | h0t | h39
          · exact absurd h39 (by decide)
          · exact h0 h0t.symm
          · exact absurd h39 (by decide)
      · exact absurd ha (by decide)
    · simp at ha

/-- Witness for C10 at the client-to-server type byte `h` (104), which the
handler has no case for. -/
theorem oicb_c10_witness :
    proceed_icb_msg ⟨[110], [114], [104]⟩ ⟨.Chat, ⟨true, false⟩, false, false⟩ 104 []
      = some ⟨⟨.Chat, ⟨true, false⟩, false, false⟩,
          [.line (cstr (unsupportedMsg 104))], []⟩ ∧
    cstr (unsupportedMsg 104) = unsupportedMsg 104 :=
  ⟨(oicb_c10 ⟨[110], [114], [104]⟩ ⟨.Chat, ⟨true, false⟩, false, false⟩ 104 [] (by decide)).1,
    (oicb_c10 ⟨[110], [114], [104]⟩ ⟨.Chat, ⟨true, false⟩, false, false⟩ 104 [] (by decide)).2
      (by decide)⟩

/-- Counterexample to C10 as stated: for the (unhandled) type byte 0 the
substitution writes a NUL into the template, and `push_stdout_msg` copies
only `strlen + 1` bytes, so the queued line is the truncated prefix
`unsupported message of type '` — not the claimed full line. -/
theorem oicb_c10_counterexample :
    proceed_icb_msg ⟨[110], [114], [104]⟩ ⟨.Chat, ⟨true, false⟩, false, false⟩ 0 []
      = some ⟨⟨.Chat, ⟨true, false⟩, false, false⟩,
          [.line (bytes "unsupported message of type " ++ [39])], []⟩ ∧
    bytes "unsupported message of type " ++ [39] ≠ unsupportedMsg 0 := by
  constructor
  · decide
  · decide


/-- Every non-fatal `proceed_icb_msg` step either leaves `srv_features`
unchanged or is the type-`e` ping-unsupported sentinel, which clears the
Ping bit. -/
theorem proceed_icb_msg_features (ctx : Ctx) (s : Sess) (typ : Nat) (payload : List Nat)
    (so : StepOut) (h : proceed_icb_msg ctx s typ payload = some so) :
    so.sess.features = s.features ∨
      (typ = 101 ∧ cstr payload = pingSentinel ∧
        so.sess.features = { s.features with ping := false }) := by
  rw [proceed_icb_msg] at h
  by_cases h97 : typ = 97
  · rw [if_pos h97] at h
    split at h
    · cases h
    · cases h; left; rfl
  · rw [if_neg h97] at h
    by_cases hb : typ = 98 ∨ typ = 99 ∨ typ = 100 ∨ typ = 102
    · rw [if_pos hb] at h
      dsimp only at h
      repeat' split at h
      all_goals try cases h
      all_goals left
      all_goals rfl
    · rw [if_neg hb] at h
      by_cases h101 : typ = 101
      · rw [if_pos h101] at h
        dsimp only at h
        by_cases hsent : cstr payload = pingSentinel
        · rw [if_pos hsent] at h
          cases h
          right
          refine ⟨h101, hsent, ?_⟩
          split <;> rfl
        · rw [if_neg hsent] at h
          cases h
          left
          split <;> rfl
      · rw [if_neg h101] at h
        by_cases h103 : typ = 103
        · rw [if_pos h103] at h
          split at h
          · cases h
          · cases h; left; rfl
        · rw [if_neg h103] at h
          by_cases h105 : typ = 105
          · rw [if_pos h105] at h
            dsimp only at h
            repeat' split at h
            all_goals try cases h
            all_goals left
            all_goals rfl
          · rw [if_neg h105] at h
            by_cases h106 : typ = 106
            · rw [if_pos h106] at h
              dsimp only at h
              repeat' split at h
              all_goals try cases h
              all_goals left
              all_goals rfl
            · rw [if_neg h106] at h
              by_cases h107 : typ = 107
              · rw [if_pos h107] at h
                split at h
                · cases h
                · cases h; left; rfl
              · rw [if_neg h107] at h
                by_cases h108 : typ = 108
                · rw [if_pos h108] at h
                  cases h; left; rfl
                · rw [if_neg h108] at h
                  by_cases h109 : typ = 109
                  · rw [if_pos h109] at h
                    cases h; left; rfl
                  · rw [if_neg h109] at h
                    by_cases h110 : typ = 110
                    · rw [if_pos h110] at h
                      split at h
                      · cases h
                      · cases h; left; rfl
                    · rw [if_neg h110] at h
                      cases h; left; rfl

/-- Once the Ping bit is clear, no `proceed_icb_msg` step sets it again. -/
theorem proceed_icb_msg_ping_mono (ctx : Ctx) (s : Sess) (typ : Nat) (payload : List Nat)
    (so : StepOut) (h : proceed_icb_msg ctx s typ payload = some so)
    (hp : s.features.ping = false) : so.sess.features.ping = false := by
  rcases proceed_icb_msg_features ctx s typ payload so h with hf | ⟨_, _, hf⟩
  · rw [hf]; exact hp
  · rw [hf]

/-- The function `proceed_user_input` never touches `srv_features`. -/
theorem proceed_user_input_features (s : Sess) (line : Option (List Nat)) :
    (proceed_user_input s line).1.features = s.features := by
  unfold proceed_user_input
  rcases line with _ | l
  · rfl
  · dsimp only
    split
    · rfl
    · split <;> rfl

/-- Once the Ping bit is clear it stays clear over any event trace. -/
theorem run_ping_mono (ctx : Ctx) : ∀ (evs : List Ev) (s s2 : Sess),
    run ctx s evs = some s2 → s.features.ping = false → s2.features.ping = false := by
  intro evs
  induction evs with
  | nil =>
    intro s s2 h hp
    simp only [run, Option.some.injEq] at h
    rw [← h]
    exact hp
  | cons e es ih =>
    intro s s2 h hp
    rw [run] at h
    rcases hr : runStep ctx s e with _ | s3
    · rw [hr] at h; cases h
    · rw [hr] at h
      refine ih s3 s2 h ?_
      cases e with
      | net typ payload =>
        simp only [runStep] at hr
        rcases ho : proceed_icb_msg ctx s typ payload with _ | so
        · rw [ho] at hr; cases hr
        · rw [ho] at hr
          simp only [Option.map_some', Option.some.injEq] at hr
          rw [← hr]
          exact proceed_icb_msg_ping_mono ctx s typ payload so ho hp
      | user line =>
        simp only [runStep, Option.some.injEq] at hr
        rw [← hr, proceed_user_input_features]
        exact hp

/-- C5 (corrected).  The Ping bit starts set; a non-fatal step clears it
only on the type-`e` ping-unsupported sentinel; in `Chat` or `CommandSent`
that sentinel is absorbed with no output, no exit flag, no fatal error; and
once clear the bit stays clear over every event trace.  The original
claim's "absorbed without terminating the session" fails in earlier states,
where the same message also sets the exit flag: see the counterexample. -/
theorem oicb_c5 :
    initialSess.features.ping = true ∧
    (∀ (ctx : Ctx) (s : Sess) (typ : Nat) (payload : List Nat) (so : StepOut),
      proceed_icb_msg ctx s typ payload = some so →
      s.features.ping = true → so.sess.features.ping = false →
      typ = 101 ∧ cstr payload = pingSentinel) ∧
    (∀ (ctx : Ctx) (s : Sess) (p : List Nat), (s.st = .Chat ∨ s.st = .CommandSent) →
      cstr p = pingSentinel →
      proceed_icb_msg ctx s 101 p
        = some ⟨{ s with features := { s.features with ping := false } }, [], []⟩) ∧
    (∀ (ctx : Ctx) (evs : List Ev) (s s2 : Sess),
      run ctx s evs = some s2 → s.features.ping = false → s2.features.ping = false) := by
  refine ⟨rfl, ?_, ?_, ?_⟩
  · intro ctx s typ payload so h hset hclear
    rcases proceed_icb_msg_features ctx s typ payload so h with hf | ⟨h1, h2, _⟩
    · rw [hf, hset] at hclear
      cases hclear
    · exact ⟨h1, h2⟩
  · intro ctx s p hst hsent
    rcases hst with hst | hst <;>
      simp [proceed_icb_msg, hst, hsent]
  · intro ctx evs s s2 h hp
    exact run_ping_mono ctx evs s s2 h hp

/-- Witness for C5: the sentinel received in `Chat` clears the bit and
nothing else happens. -/
theorem oicb_c5_witness :
    proceed_icb_msg ⟨[110], [114], [104]⟩ ⟨.Chat, ⟨true, false⟩, false, false⟩ 101 pingSentinel
      = some ⟨⟨.Chat, ⟨false, false⟩, false, false⟩, [], []⟩ :=
  oicb_c5.2.2.1 ⟨[110], [114], [104]⟩ ⟨.Chat, ⟨true, false⟩, false, false⟩ pingSentinel
    (Or.inl rfl) (by decide)

/-- Counterexample to C5 as stated: the sentinel received in `LoginSent`
does clear the Ping bit, but `want_exit` is set first (the state is neither
`Chat` nor `CommandSent`), so the session terminates — the clearing is not
absorbed without terminating the session. -/
theorem oicb_c5_counterexample :
    proceed_icb_msg ⟨[110], [114], [104]⟩ ⟨.LoginSent, ⟨true, false⟩, false, false⟩ 101
        pingSentinel
      = some ⟨⟨.LoginSent, ⟨false, false⟩, true, false⟩, [], []⟩ ∧
    (⟨⟨.LoginSent, ⟨false, false⟩, true, false⟩, [], []⟩ : StepOut).sess.wantExit = true := by
  constructor
  · decide
  · rfl


/-- The function `pendingBytes` unfolds one task at a time. -/
theorem pendingBytes_cons (t : IcbTask) (ts : List IcbTask) :
    pendingBytes (t :: ts) = t.it_data.drop t.it_ndone ++ pendingBytes ts := by
  simp [pendingBytes]

/-- C7 (confirmed).  One `proceed_output` flush against a destination that
accepts `avail` bytes: (1) the `it_ndone ≤ it_len` invariant is preserved;
(2) the pending bytes before the call are exactly the bytes written followed
by the pending bytes after it — a partially written task keeps its
remaining bytes at the head, reissued verbatim on the next flush, with no
byte duplicated or lost; (3) every completed (callback-invoked, freed) task
is fully flushed; (4) the completed tasks are exactly the leading tasks of
the queue, in order, and (5) the surviving queue is the remaining suffix
with its data untouched — a callback runs exactly once, when its task is
fully flushed, and never again (the task has left the queue). -/
theorem oicb_c7 (q : List IcbTask) (avail : Nat)
    (hinv : ∀ t ∈ q, t.it_ndone ≤ t.it_data.length) :
    (∀ t ∈ (proceed_output q avail).1, t.it_ndone ≤ t.it_data.length) ∧
    pendingBytes q
      = (proceed_output q avail).2.1 ++ pendingBytes (proceed_output q avail).1 ∧
    (∀ t ∈ (proceed_output q avail).2.2, t.it_ndone = t.it_data.length) ∧
    ((proceed_output q avail).2.2.map fun t => t.it_data)
      = ((q.take (proceed_output q avail).2.2.length).map fun t => t.it_data) ∧
    ((proceed_output q avail).1.map fun t => t.it_data)
      = ((q.drop (proceed_output q avail).2.2.length).map fun t => t.it_data) := by
  induction q generalizing avail with
  | nil => simp [proceed_output, pendingBytes]
  | cons t ts ih =>
    have hti : t.it_ndone ≤ t.it_data.length := hinv t (by simp)
    have hts : ∀ u ∈ ts, u.it_ndone ≤ u.it_data.length := fun u hu => hinv u (by simp [hu])
    have hmin : min (t.it_data.length - t.it_ndone) avail ≤ t.it_data.length - t.it_ndone :=
      Nat.min_le_left _ _
    rw [proceed_output]
    dsimp only
    split
    · rename_i hlt
      refine ⟨?_, ?_, ?_, ?_, ?_⟩
      · intro u hu
        rcases List.mem_cons.mp hu with rfl | hu
        · dsimp only
          omega
        · exact hts u hu
      · rw [pendingBytes_cons, pendingBytes_cons]
        dsimp only
        rw [← List.append_assoc]
        congr 1
        conv_lhs => rw [← List.take_append_drop
          (min (t.it_data.length - t.it_ndone) avail) (t.it_data.drop t.it_ndone)]
        congr 1
        rw [List.drop_drop]
      · intro u hu
        simp at hu
      · simp
      · simp
    · rename_i hge
      have hr := ih (avail - min (t.it_data.length - t.it_ndone) avail) hts
      have hn : t.it_ndone + min (t.it_data.length - t.it_ndone) avail
          = t.it_data.length := by omega
      refine ⟨hr.1, ?_, ?_, ?_, ?_⟩
      · rw [pendingBytes_cons, List.append_assoc, ← hr.2.1]
        congr 1
        refine (List.take_of_length_le ?_).symm
        simp only [List.length_drop]
        omega
      · intro u hu
        rcases List.mem_cons.mp hu with rfl | hu
        · dsimp only
          exact hn
        · exact hr.2.2.1 u hu
      · simp only [List.map_cons, List.length_cons, List.take_succ_cons]
        rw [hr.2.2.2.1]
      · simp only [List.length_cons, List.drop_succ_cons]
        exact hr.2.2.2.2

/-- Witness for C7, the spec scenario: a 100-byte task against a
destination that accepts only 40 bytes keeps the task at the head with 40
bytes done, and the pending bytes split exactly as written-then-remaining.
-/
theorem oicb_c7_witness :
    (proceed_output [⟨0, List.replicate 100 7, false⟩] 40).1
      = [⟨40, List.replicate 100 7, false⟩] ∧
    pendingBytes [⟨0, List.replicate 100 7, false⟩]
      = (proceed_output [⟨0, List.replicate 100 7, false⟩] 40).2.1
        ++ pendingBytes (proceed_output [⟨0, List.replicate 100 7, false⟩] 40).1 :=
  ⟨by decide, (oicb_c7 [⟨0, List.replicate 100 7, false⟩] 40 (by decide)).2.1⟩

end Oicb
